import Mathlib

/-!
Shallow embedding of `src/merkle/src/merkle.rs` (crate `merkle_light_serde`):
a Merkle tree over a flat array, with power-of-two padding, plus inclusion
proof generation.  The digest type `T` of the Rust code is an abstract type
`D` with decidable equality; the `Algorithm` collaborator is passed as the
two functions `leaf : I → D` and `node : D → D → D` together with the
`T::default()` zero digest `h0 : D`.  `usize` arithmetic is `Nat` with an
explicit `% 2 ^ 64` where the Rust code can wrap.  Array indexing that can
panic in Rust is modelled with `getElem?` (`none` = panic); loops are
modelled as fuel-structured recursion, called with provably sufficient fuel.
-/

namespace Merkle

/-- Bit width of `usize` on the 64-bit targets this crate is built for. -/
def usizeWidth : Nat := 64

/-- `next_pow2` (merkle.rs lines 219-228): bit-smearing next power of two.
`n -= 1` and the final `+ 1` are `usize` operations, taken mod `2 ^ 64`;
the shift/or chain cannot overflow. -/
def next_pow2 (n : Nat) : Nat :=
  let n := (n + (2 ^ usizeWidth - 1)) % 2 ^ usizeWidth
  let n := n ||| (n >>> 1)
  let n := n ||| (n >>> 2)
  let n := n ||| (n >>> 4)
  let n := n ||| (n >>> 8)
  let n := n ||| (n >>> 16)
  let n := n ||| (n >>> 32)
  (n + 1) % 2 ^ usizeWidth

/-- Fuel-structured core of `usize::trailing_zeros` for a nonzero argument:
count the trailing zero bits.  The fuel (64, the word width) strictly
exceeds the trailing-zero count of any nonzero `usize` value. -/
def tzGo : Nat → Nat → Nat
  | 0, _ => 0
  | fuel + 1, n => if n % 2 = 1 then 0 else tzGo fuel (n / 2) + 1

/-- `usize::trailing_zeros`: 64 on input 0, else the trailing zero count. -/
def trailing_zeros (n : Nat) : Nat :=
  if n = 0 then usizeWidth else tzGo usizeWidth n

/-- `log2_pow2` (merkle.rs lines 231-233): `n.trailing_zeros()`. -/
def log2_pow2 (n : Nat) : Nat :=
  trailing_zeros n

/-- The `MerkleTree` struct (merkle.rs lines 43-49).  The stored hasher
`alg` carries no data in the embedding (its two operations are passed to
the functions that use them), so it is omitted from the record. -/
structure MerkleTree (D : Type) where
  data : List D
  olen : Nat
  leafs : Nat
  height : Nat
deriving DecidableEq, Repr

/-- The `Proof` struct of the `proof` module: the lemma digests (queried
leaf, one sibling per level, root) and the direction bits. -/
structure Proof (D : Type) where
  «lemma» : List D
  path : List Bool
deriving DecidableEq, Repr

variable {D : Type} [DecidableEq D] {I : Type}

/-- One parent derivation of `build` (merkle.rs lines 120-134): the
if/else chain on the left child `l` and right child `r` of a pair. -/
def parentDigest (node : D → D → D) (h0 l r : D) : D :=
  if l = h0 then h0
  else if r = h0 then node l l
  else node l r

/-- The `while i < size - 1` loop of `build` (merkle.rs lines 117-138):
reads the child pair at `i, i + 1`, writes the parent at `j`, advances
`i` by 2 and `j` by 1.  Reads use `List.getD`; the loop only runs with
`i + 1 < size = data.length`, where `getD` agrees with the panicking
Rust index.  `fuel` bounds the iteration count and is passed as `size`,
which strictly exceeds the `leafs - 1` iterations performed. -/
def buildLoop (node : D → D → D) (h0 : D) (size : Nat) :
    Nat → Nat → Nat → List D → List D
  | 0, _, _, data => data
  | fuel + 1, i, j, data =>
    if i < size - 1 then
      buildLoop node h0 size fuel (i + 2) (j + 1)
        (data.set j (parentDigest node h0 (data.getD i h0) (data.getD (i + 1) h0)))
    else data

/-- `from_iter` (merkle.rs lines 76-102) composed with `build` (lines
104-139).  The iterator is a Lean list, whose length is always known, so
the `size_hint` `None` panic branch cannot arise; `assert!(iter_count > 1)`
is the `none` result.  `build` first pads the leaf digests with
`size - olen` default digests, then runs the parent loop from `i = 0`,
`j = (size + 1) / 2`. -/
def from_iter (leaf : I → D) (node : D → D → D) (h0 : D) (items : List I) :
    Option (MerkleTree D) :=
  let iter_count := items.length
  if 1 < iter_count then
    let pow := next_pow2 iter_count
    let size := 2 * pow - 1
    let data0 := items.map leaf ++ List.replicate (size - iter_count) h0
    some { data := buildLoop node h0 size size 0 ((size + 1) / 2) data0
         , olen := iter_count
         , leafs := pow
         , height := log2_pow2 (size + 1) }
  else none

/-- `from_hash` (merkle.rs lines 58-60): `from_iter` over the cloned
digests; `from_iter` still applies the hasher's `leaf` to each element. -/
def from_hash (leaf : D → D) (node : D → D → D) (h0 : D) (data : List D) :
    Option (MerkleTree D) :=
  from_iter leaf node h0 data

/-- `new` (merkle.rs lines 53-55): delegates to `from_hash`. -/
def new (leaf : D → D) (node : D → D → D) (h0 : D) (data : List D) :
    Option (MerkleTree D) :=
  from_hash leaf node h0 data

/-- `root` (merkle.rs lines 182-184): the last element of `data`; `none`
models the panic on an empty array. -/
def MerkleTree.root (t : MerkleTree D) : Option D :=
  t.data[t.data.length - 1]?

/-- The `while step > 1` loop of `gen_proof` (merkle.rs lines 154-174).
Each iteration chooses the sibling position `pair` (for a left child,
the right slot unless it holds the zero digest, in which case the node
itself; for a right child, the left neighbour), appends `data[pair]` to
the lemma and `j & 1 == 0` to the path, then moves up one level.  Reads
return `none` out of bounds (a Rust panic).  Exhausted fuel with the
loop guard still true is also `none`; callers pass fuel `≥ log2 step`. -/
def proofLoop (h0 : D) (data : List D) :
    Nat → Nat → Nat → Nat → List D → List Bool → Option (List D × List Bool)
  | 0, _, step, _, lem, path => if 1 < step then none else some (lem, path)
  | fuel + 1, base, step, j, lem, path =>
    if 1 < step then
      let pairIdx : Option Nat :=
        if j &&& 1 == 0 then
          match data[base + j + 1]? with
          | none => none
          | some rh => if rh = h0 then some (base + j) else some (base + j + 1)
        else some (base + j - 1)
      match pairIdx with
      | none => none
      | some pair =>
        match data[pair]? with
        | none => none
        | some v =>
          proofLoop h0 data fuel (base + step) (step >>> 1) (j >>> 1)
            (lem ++ [v]) (path ++ [j &&& 1 == 0])
    else some (lem, path)

/-- `gen_proof` (merkle.rs lines 142-179): `assert!(i < self.olen)` is the
outer guard; the lemma starts with `data[i]`, the loop walks from the leaf
level (`base = 0`, `step = leafs`, `j = i`), and the root is appended
last.  The fuel `t.leafs` strictly exceeds the `log2 leafs` iterations. -/
def MerkleTree.gen_proof (h0 : D) (t : MerkleTree D) (i : Nat) : Option (Proof D) :=
  if i < t.olen then
    match t.data[i]? with
    | none => none
    | some first =>
      match proofLoop h0 t.data t.leafs 0 t.leafs i [first] [] with
      | none => none
      | some (lem, path) =>
        match t.root with
        | none => none
        | some r => some { «lemma» := lem ++ [r], path := path }
  else none

/-- Modelled from the spec: the external Verifier contract of section 6
(not part of this crate).  Starting from the queried leaf digest, fold the
sibling entries through `node`, left-then-right when the path bit says the
current node was a left child, right-then-left otherwise. -/
def verify_fold (node : D → D → D) : D → List D → List Bool → D
  | acc, s :: ss, b :: bs => verify_fold node (if b then node acc s else node s acc) ss bs
  | acc, _, _ => acc

/-! ### Arithmetic of `next_pow2` -/

/-- The six-stage bit-smear of `next_pow2`, restated as a standalone
function so that the stages can be reasoned about one at a time. -/
def smearChain (x : Nat) : Nat :=
  let x1 := x ||| (x >>> 1)
  let x2 := x1 ||| (x1 >>> 2)
  let x3 := x2 ||| (x2 >>> 4)
  let x4 := x3 ||| (x3 >>> 8)
  let x5 := x4 ||| (x4 >>> 16)
  x5 ||| (x5 >>> 32)

lemma next_pow2_eq_smearChain (n : Nat) :
    next_pow2 n =
      (smearChain ((n + (2 ^ usizeWidth - 1)) % 2 ^ usizeWidth) + 1) % 2 ^ usizeWidth := rfl

lemma or_shift_testBit (y k i : Nat) :
    (y ||| y >>> k).testBit i = (y.testBit i || y.testBit (i + k)) := by
  rw [Nat.testBit_lor, Nat.testBit_shiftRight, Nat.add_comm k i]

lemma smear_step {x y k : Nat}
    (hy : ∀ i, y.testBit i = true ↔ ∃ d, d < k ∧ x.testBit (i + d) = true) :
    ∀ i, (y ||| y >>> k).testBit i = true ↔ ∃ d, d < 2 * k ∧ x.testBit (i + d) = true := by
  intro i
  rw [or_shift_testBit, Bool.or_eq_true, hy i, hy (i + k)]
  constructor
  · rintro (⟨d, hd, hbit⟩ | ⟨d, hd, hbit⟩)
    · exact ⟨d, by omega, hbit⟩
    · exact ⟨k + d, by omega, by rwa [← Nat.add_assoc]⟩
  · rintro ⟨d, hd, hbit⟩
    by_cases hdk : d < k
    · exact Or.inl ⟨d, hdk, hbit⟩
    · exact Or.inr ⟨d - k, by omega, by rwa [Nat.add_assoc, Nat.add_sub_cancel' (by omega)]⟩

lemma smearChain_testBit (x i : Nat) :
    (smearChain x).testBit i = true ↔ ∃ d, d < 64 ∧ x.testBit (i + d) = true := by
  have h1 : ∀ i, x.testBit i = true ↔ ∃ d, d < 1 ∧ x.testBit (i + d) = true := by
    intro i
    constructor
    · intro h; exact ⟨0, Nat.zero_lt_one, by simpa using h⟩
    · rintro ⟨d, hd, h⟩
      have : d = 0 := by omega
      simpa [this] using h
  have h2 := smear_step h1
  have h4 := smear_step h2
  have h8 := smear_step h4
  have h16 := smear_step h8
  have h32 := smear_step h16
  have h64 := smear_step h32
  have hface := h64 i
  have hb : 2 * (2 * (2 * (2 * (2 * (2 * 1))))) = 64 := by norm_num
  rw [hb] at hface
  exact hface

lemma testBit_log2_self {x : Nat} (hx : 0 < x) : x.testBit (Nat.log2 x) = true := by
  rw [Nat.testBit_to_div_mod]
  have hle : 2 ^ Nat.log2 x ≤ x := Nat.log2_self_le (by omega)
  have hlt : x < 2 ^ (Nat.log2 x + 1) := Nat.lt_log2_self
  have h1 : 1 ≤ x / 2 ^ Nat.log2 x := (Nat.one_le_div_iff (Nat.pos_pow_of_pos _ (by omega))).2 hle
  have h2 : x / 2 ^ Nat.log2 x < 2 := by
    rw [Nat.div_lt_iff_lt_mul (Nat.pos_pow_of_pos _ (by omega))]
    have hps : 2 ^ (Nat.log2 x + 1) = 2 ^ Nat.log2 x * 2 := by ring
    omega
  have : x / 2 ^ Nat.log2 x = 1 := by omega
  simp [this]

lemma testBit_false_of_log2_lt {x j : Nat} (h : Nat.log2 x < j) : x.testBit j = false := by
  rcases Nat.eq_zero_or_pos x with hx | hx
  · simp [hx]
  · apply Nat.testBit_lt_two_pow
    calc x < 2 ^ (Nat.log2 x + 1) := Nat.lt_log2_self
    _ ≤ 2 ^ j := Nat.pow_le_pow_right (by omega) (by omega)

lemma smearChain_of_pos {x : Nat} (hx : 0 < x) (hx64 : x < 2 ^ 64) :
    smearChain x = 2 ^ (Nat.log2 x + 1) - 1 := by
  have hlog : Nat.log2 x < 64 := (Nat.log2_lt (by omega)).2 hx64
  apply Nat.eq_of_testBit_eq
  intro i
  rw [Nat.testBit_two_pow_sub_one]
  by_cases hi : i ≤ Nat.log2 x
  · have hbit : (smearChain x).testBit i = true := by
      refine (smearChain_testBit x i).2 ⟨Nat.log2 x - i, by omega, ?_⟩
      rw [Nat.add_sub_cancel' hi]
      exact testBit_log2_self hx
    have hlt2 : i < Nat.log2 x + 1 := by omega
    simp [hbit, hlt2]
  · have hbit : (smearChain x).testBit i = false := by
      cases hb : (smearChain x).testBit i with
      | false => rfl
      | true =>
        rcases (smearChain_testBit x i).1 hb with ⟨d, _, hd⟩
        rw [testBit_false_of_log2_lt (by omega)] at hd
        exact absurd hd (by simp)
    have hlt2 : ¬ i < Nat.log2 x + 1 := by omega
    simp [hbit, hlt2]

lemma smearChain_zero : smearChain 0 = 0 := by decide

lemma next_pow2_one : next_pow2 1 = 1 := by decide

lemma next_pow2_eq_pow {n : Nat} (h2 : 2 ≤ n) (hn : n ≤ 2 ^ 63) :
    next_pow2 n = 2 ^ (Nat.log2 (n - 1) + 1) := by
  have hmod : (n + (2 ^ usizeWidth - 1)) % 2 ^ usizeWidth = n - 1 := by
    show (n + (2 ^ 64 - 1)) % 2 ^ 64 = n - 1
    have h : n + (2 ^ 64 - 1) = (n - 1) + 1 * 2 ^ 64 := by omega
    rw [h, Nat.add_mul_mod_self_right, Nat.mod_eq_of_lt (by omega)]
  have hlog : Nat.log2 (n - 1) < 63 := (Nat.log2_lt (by omega)).2 (by omega)
  have hsm : smearChain (n - 1) = 2 ^ (Nat.log2 (n - 1) + 1) - 1 :=
    smearChain_of_pos (by omega) (by omega)
  rw [next_pow2_eq_smearChain, hmod, hsm]
  have hpos : 1 ≤ 2 ^ (Nat.log2 (n - 1) + 1) := Nat.one_le_two_pow
  have hub : 2 ^ (Nat.log2 (n - 1) + 1) ≤ 2 ^ 63 := Nat.pow_le_pow_right (by omega) (by omega)
  have : 2 ^ (Nat.log2 (n - 1) + 1) - 1 + 1 = 2 ^ (Nat.log2 (n - 1) + 1) := by omega
  rw [this]
  show 2 ^ (Nat.log2 (n - 1) + 1) % 2 ^ 64 = 2 ^ (Nat.log2 (n - 1) + 1)
  exact Nat.mod_eq_of_lt (by calc 2 ^ (Nat.log2 (n - 1) + 1) ≤ 2 ^ 63 := hub
    _ < 2 ^ 64 := by norm_num)

lemma le_next_pow2 {n : Nat} (h1 : 1 ≤ n) (hn : n ≤ 2 ^ 63) : n ≤ next_pow2 n := by
  rcases Nat.lt_or_ge n 2 with h | h
  · have : n = 1 := by omega
    simp [this, next_pow2_one]
  · rw [next_pow2_eq_pow h hn]
    have := @Nat.lt_log2_self (n - 1)
    omega

lemma next_pow2_le_pow {n k : Nat} (h1 : 1 ≤ n) (hn : n ≤ 2 ^ 63) (h : n ≤ 2 ^ k) :
    next_pow2 n ≤ 2 ^ k := by
  rcases Nat.lt_or_ge n 2 with h2 | h2
  · have : n = 1 := by omega
    simp only [this, next_pow2_one]
    exact Nat.one_le_two_pow
  · rw [next_pow2_eq_pow h2 hn]
    apply Nat.pow_le_pow_right (by omega)
    have : Nat.log2 (n - 1) < k := (Nat.log2_lt (by omega)).2 (by omega)
    omega

lemma next_pow2_isPow {n : Nat} (h1 : 1 ≤ n) (hn : n ≤ 2 ^ 63) :
    ∃ e, e ≤ 63 ∧ next_pow2 n = 2 ^ e := by
  rcases Nat.lt_or_ge n 2 with h2 | h2
  · have : n = 1 := by omega
    exact ⟨0, by omega, by simp [this, next_pow2_one]⟩
  · refine ⟨Nat.log2 (n - 1) + 1, ?_, next_pow2_eq_pow h2 hn⟩
    have : Nat.log2 (n - 1) < 63 := (Nat.log2_lt (by omega)).2 (by omega)
    omega

lemma next_pow2_pow_self {e : Nat} (he : e ≤ 63) : next_pow2 (2 ^ e) = 2 ^ e := by
  have h1 : 1 ≤ 2 ^ e := Nat.one_le_two_pow
  have hn : 2 ^ e ≤ 2 ^ 63 := Nat.pow_le_pow_right (by omega) he
  have hup := next_pow2_le_pow h1 hn (Nat.le_refl _)
  have hdown := le_next_pow2 h1 hn
  omega

/-! ### `trailing_zeros` on powers of two -/

lemma tzGo_pow2 : ∀ fuel e, e < fuel → tzGo fuel (2 ^ e) = e := by
  intro fuel
  induction fuel with
  | zero => intro e he; omega
  | succ fuel ih =>
    intro e he
    cases e with
    | zero => simp [tzGo]
    | succ e' =>
      have hmod : ¬ 2 ^ (e' + 1) % 2 = 1 := by
        rw [pow_succ, Nat.mul_mod_left]
        omega
      have hdiv : 2 ^ (e' + 1) / 2 = 2 ^ e' := by
        rw [pow_succ]
        exact Nat.mul_div_cancel _ (by omega)
      show (if 2 ^ (e' + 1) % 2 = 1 then 0 else tzGo fuel (2 ^ (e' + 1) / 2) + 1) = e' + 1
      rw [if_neg hmod, hdiv, ih e' (by omega)]

lemma log2_pow2_pow {e : Nat} (he : e ≤ 63) : log2_pow2 (2 ^ e) = e := by
  have hne : ¬ (2 ^ e = 0) := by positivity
  show trailing_zeros (2 ^ e) = e
  rw [trailing_zeros, if_neg hne]
  exact tzGo_pow2 64 e (by omega)

/-! ### The `build` loop: flat-array characterization -/

/-- After `build`, position `leafs + s` holds the derived parent of the
children at `2 s` and `2 s + 1`: the defining recurrence of the flat
layout.  Stated over the final array `r`. -/
def heapRecur (node : D → D → D) (h0 : D) (leafs : Nat) (r : List D) : Prop :=
  ∀ s, s < leafs - 1 →
    r[leafs + s]? = some (parentDigest node h0 (r.getD (2 * s) h0) (r.getD (2 * s + 1) h0))

lemma buildLoop_spec (node : D → D → D) (h0 : D) (leafs : Nat) (hl : 1 ≤ leafs) :
    ∀ fuel i j data,
      data.length = 2 * leafs - 1 →
      i % 2 = 0 →
      i ≤ 2 * leafs - 2 →
      j = leafs + i / 2 →
      2 * leafs - 2 - i ≤ 2 * fuel →
      (∀ s, s < j - leafs →
        data[leafs + s]? =
          some (parentDigest node h0 (data.getD (2 * s) h0) (data.getD (2 * s + 1) h0))) →
      (buildLoop node h0 (2 * leafs - 1) fuel i j data).length = data.length ∧
      (∀ m, m < j → (buildLoop node h0 (2 * leafs - 1) fuel i j data)[m]? = data[m]?) ∧
      heapRecur node h0 leafs (buildLoop node h0 (2 * leafs - 1) fuel i j data) := by
  intro fuel
  induction fuel with
  | zero =>
    intro i j data hlen hieven hile hj hfuel hinv
    have hie : i = 2 * leafs - 2 := by omega
    refine ⟨rfl, fun m _ => rfl, ?_⟩
    intro s hs
    apply hinv
    omega
  | succ fuel ih =>
    intro i j data hlen hieven hile hj hfuel hinv
    by_cases hguard : i < 2 * leafs - 1 - 1
    · have hstep : buildLoop node h0 (2 * leafs - 1) (fuel + 1) i j data =
          buildLoop node h0 (2 * leafs - 1) fuel (i + 2) (j + 1)
            (data.set j (parentDigest node h0 (data.getD i h0) (data.getD (i + 1) h0))) := by
        show (if i < 2 * leafs - 1 - 1 then _ else data) = _
        rw [if_pos hguard]
      have hi2 : i ≤ 2 * leafs - 4 := by omega
      have hij : i < j ∧ i + 1 < j := by omega
      have hjlen : j < 2 * leafs - 1 := by omega
      set v := parentDigest node h0 (data.getD i h0) (data.getD (i + 1) h0) with hv
      have hlen' : (data.set j v).length = 2 * leafs - 1 := by
        rw [List.length_set]; exact hlen
      have hinv' : ∀ s, s < j + 1 - leafs →
          (data.set j v)[leafs + s]? =
            some (parentDigest node h0 ((data.set j v).getD (2 * s) h0)
              ((data.set j v).getD (2 * s + 1) h0)) := by
        intro s hs
        have hs2 : 2 * s + 1 < j := by omega
        have hgd0 : (data.set j v).getD (2 * s) h0 = data.getD (2 * s) h0 := by
          rw [List.getD_eq_getElem?_getD, List.getD_eq_getElem?_getD,
            List.getElem?_set_ne (by omega)]
        have hgd1 : (data.set j v).getD (2 * s + 1) h0 = data.getD (2 * s + 1) h0 := by
          rw [List.getD_eq_getElem?_getD, List.getD_eq_getElem?_getD,
            List.getElem?_set_ne (by omega)]
        rw [hgd0, hgd1]
        by_cases hsj : s < j - leafs
        · rw [List.getElem?_set_ne (by omega)]
          exact hinv s hsj
        · have hse : leafs + s = j := by omega
          rw [hse, List.getElem?_set_self (by omega)]
          have h2s : 2 * s = i := by omega
          rw [h2s]
        -- in the `hse` branch the written value is exactly the parent of the pair at i
      have := ih (i + 2) (j + 1) (data.set j v) hlen' (by omega) (by omega) (by omega)
        (by omega) hinv'
      rw [hstep]
      refine ⟨by rw [this.1, List.length_set], ?_, this.2.2⟩
      intro m hm
      rw [this.2.1 m (by omega), List.getElem?_set_ne (by omega)]
    · have hstop : buildLoop node h0 (2 * leafs - 1) (fuel + 1) i j data = data := by
        show (if i < 2 * leafs - 1 - 1 then _ else data) = data
        rw [if_neg hguard]
      rw [hstop]
      refine ⟨rfl, fun m _ => rfl, ?_⟩
      intro s hs
      apply hinv
      omega

/-- Characterization of a successfully built tree: field values, array
length, the leaf-level contents, and the parent recurrence. -/
lemma from_iter_char {leaf : I → D} {node : D → D → D} {h0 : D} {items : List I}
    {t : MerkleTree D}
    (hn2 : 2 ≤ items.length) (hn : items.length ≤ 2 ^ 62)
    (ht : from_iter leaf node h0 items = some t) :
    ∃ e, e ≤ 62 ∧ t.leafs = 2 ^ e ∧
      t.olen = items.length ∧
      t.leafs = next_pow2 items.length ∧
      items.length ≤ t.leafs ∧
      t.height = e + 1 ∧
      t.data.length = 2 * t.leafs - 1 ∧
      (∀ m, m < t.leafs →
        t.data[m]? = (items.map leaf ++ List.replicate (t.leafs - items.length) h0)[m]?) ∧
      heapRecur node h0 t.leafs t.data := by
  have hn63 : items.length ≤ 2 ^ 63 := by
    have h : (2 : Nat) ^ 62 ≤ 2 ^ 63 := Nat.pow_le_pow_right (by omega) (by omega)
    omega
  obtain ⟨e, he63, hpow⟩ := next_pow2_isPow (n := items.length) (by omega) hn63
  have hnp : items.length ≤ next_pow2 items.length := le_next_pow2 (by omega) hn63
  have hple : next_pow2 items.length ≤ 2 ^ 62 := next_pow2_le_pow (by omega) hn63 hn
  have he62 : e ≤ 62 := by
    rw [hpow] at hple
    exact (Nat.pow_le_pow_iff_right (by omega)).1 hple
  rw [from_iter] at ht
  simp only [if_pos (by omega : 1 < items.length)] at ht
  set pow := next_pow2 items.length with hpowdef
  set size := 2 * pow - 1 with hsize
  set data0 := items.map leaf ++ List.replicate (size - items.length) h0 with hdata0
  have hpow1 : 1 ≤ pow := by omega
  have hlen0 : data0.length = 2 * pow - 1 := by
    rw [hdata0, List.length_append, List.length_map, List.length_replicate]
    omega
  have hj0 : (size + 1) / 2 = pow + 0 / 2 := by omega
  have hspec := buildLoop_spec node h0 pow hpow1 size 0 ((size + 1) / 2) data0 hlen0
    (by omega) (by omega) (by omega) (by omega) (fun s hs => by omega)
  rcases ht with ⟨⟩
  refine ⟨e, he62, hpow, rfl, rfl, hnp, ?_, ?_, ?_, ?_⟩
  · show log2_pow2 (size + 1) = e + 1
    have hs1 : size + 1 = 2 ^ (e + 1) := by
      rw [hsize, hpow]
      have h1 : (1 : Nat) ≤ 2 ^ e := Nat.one_le_two_pow
      have h2 : (2 : Nat) ^ (e + 1) = 2 * 2 ^ e := by ring
      omega
    rw [hs1]
    exact log2_pow2_pow (by omega)
  · show (buildLoop node h0 size size 0 ((size + 1) / 2) data0).length = 2 * pow - 1
    rw [hspec.1, hlen0]
  · intro m hm
    have hm' : m < pow := hm
    show (buildLoop node h0 size size 0 ((size + 1) / 2) data0)[m]? =
      (items.map leaf ++ List.replicate (pow - items.length) h0)[m]?
    rw [hspec.2.1 m (by omega), hdata0]
    rw [List.getElem?_append, List.getElem?_append]
    by_cases hmn : m < items.length
    · rw [if_pos (by simpa using hmn), if_pos (by simpa using hmn)]
    · rw [if_neg (by simpa using hmn), if_neg (by simpa using hmn)]
      rw [List.getElem?_replicate, List.getElem?_replicate, List.length_map]
      have hsz : pow ≤ size := by omega
      rw [if_pos (by omega), if_pos (by omega)]
  · exact hspec.2.2

/-! ### Level invariant: nonzero digests form a prefix of every level -/

/-- In the array `r`, the tree level starting at offset `base` with `step`
slots is fully populated, and a slot is nonzero exactly when its position
is below `cnt`. -/
def levelOK (h0 : D) (r : List D) (base step cnt : Nat) : Prop :=
  ∀ s, s < step → ∃ v, r[base + s]? = some v ∧ (v ≠ h0 ↔ s < cnt)

lemma levelOK_up {node : D → D → D} {h0 : D} {r : List D} {leafs : Nat}
    (hrec : heapRecur node h0 leafs r)
    (hnode : ∀ a b, a ≠ h0 → b ≠ h0 → node a b ≠ h0)
    {e m cnt : Nat} (hleafs : leafs = 2 ^ e) (hm : m + 1 ≤ e)
    (hlev : levelOK h0 r (2 * leafs - 2 ^ (m + 2)) (2 ^ (m + 1)) cnt) :
    levelOK h0 r (2 * leafs - 2 ^ (m + 1)) (2 ^ m) ((cnt + 1) / 2) := by
  intro s hs
  have hP : (0 : Nat) < 2 ^ m := Nat.pos_pow_of_pos _ (by omega)
  have hP1 : (2 : Nat) ^ (m + 1) = 2 * 2 ^ m := by ring
  have hP2 : (2 : Nat) ^ (m + 2) = 4 * 2 ^ m := by ring
  have hle : 2 ^ (m + 1) ≤ leafs := by
    rw [hleafs]
    exact Nat.pow_le_pow_right (by omega) hm
  obtain ⟨v0, hv0, hiff0⟩ := hlev (2 * s) (by omega)
  obtain ⟨v1, hv1, hiff1⟩ := hlev (2 * s + 1) (by omega)
  set t := leafs - 2 ^ (m + 1) + s with hteq
  have hidx : 2 * leafs - 2 ^ (m + 1) + s = leafs + t := by omega
  have ht : t < leafs - 1 := by omega
  have h2t : 2 * t = 2 * leafs - 2 ^ (m + 2) + 2 * s := by omega
  have hrect := hrec t ht
  have hgd0 : r.getD (2 * t) h0 = v0 := by
    rw [List.getD_eq_getElem?_getD, h2t, hv0]
    rfl
  have hgd1 : r.getD (2 * t + 1) h0 = v1 := by
    have h2t1 : 2 * t + 1 = 2 * leafs - 2 ^ (m + 2) + (2 * s + 1) := by omega
    rw [List.getD_eq_getElem?_getD, h2t1, hv1]
    rfl
  rw [hgd0, hgd1] at hrect
  refine ⟨parentDigest node h0 v0 v1, by rw [hidx]; exact hrect, ?_⟩
  by_cases h2s : 2 * s < cnt
  · have hv0ne : v0 ≠ h0 := hiff0.2 h2s
    by_cases h2s1 : 2 * s + 1 < cnt
    · have hv1ne : v1 ≠ h0 := hiff1.2 h2s1
      rw [parentDigest, if_neg hv0ne, if_neg hv1ne]
      constructor
      · intro _; omega
      · intro _; exact hnode v0 v1 hv0ne hv1ne
    · have hv1z : v1 = h0 := by
        by_contra hne
        exact h2s1 (hiff1.1 hne)
      rw [parentDigest, if_neg hv0ne, if_pos hv1z]
      constructor
      · intro _; omega
      · intro _; exact hnode v0 v0 hv0ne hv0ne
  · have hv0z : v0 = h0 := by
      by_contra hne
      exact h2s (hiff0.1 hne)
    rw [parentDigest, if_pos hv0z]
    constructor
    · intro h; exact absurd rfl h
    · intro h; omega

lemma levelOK_leafLevel {leaf : I → D} {h0 : D} {items : List I}
    {t : MerkleTree D} {e : Nat}
    (hleaf : ∀ x ∈ items, leaf x ≠ h0)
    (hlv : t.leafs = 2 ^ e)
    (hnle : items.length ≤ t.leafs)
    (hslots : ∀ m, m < t.leafs →
      t.data[m]? = (items.map leaf ++ List.replicate (t.leafs - items.length) h0)[m]?) :
    levelOK h0 t.data (2 * t.leafs - 2 ^ (e + 1)) (2 ^ e) items.length := by
  have hp1 : (2 : Nat) ^ (e + 1) = 2 * 2 ^ e := by ring
  have hbase : 2 * t.leafs - 2 ^ (e + 1) = 0 := by omega
  intro s hs
  rw [hbase, Nat.zero_add]
  have hslt : s < t.leafs := by omega
  rw [hslots s hslt, List.getElem?_append]
  by_cases hsn : s < items.length
  · rw [if_pos (by simpa using hsn), List.getElem?_map,
      List.getElem?_eq_getElem hsn]
    refine ⟨leaf items[s], rfl, ?_⟩
    have : leaf items[s] ≠ h0 := hleaf items[s] (List.getElem_mem hsn)
    constructor
    · intro _; exact hsn
    · intro _; exact this
  · rw [if_neg (by simpa using hsn), List.getElem?_replicate, List.length_map,
      if_pos (by omega)]
    refine ⟨h0, rfl, ?_⟩
    constructor
    · intro h; exact absurd rfl h
    · intro h; omega

lemma levelOK_tower {node : D → D → D} {h0 : D} {r : List D} {leafs e n : Nat}
    (hrec : heapRecur node h0 leafs r)
    (hnode : ∀ a b, a ≠ h0 → b ≠ h0 → node a b ≠ h0)
    (hleafs : leafs = 2 ^ e)
    (hn1 : 1 ≤ n)
    (hlev0 : levelOK h0 r (2 * leafs - 2 ^ (e + 1)) (2 ^ e) n) :
    ∀ k, k ≤ e →
      levelOK h0 r (2 * leafs - 2 ^ (e - k + 1)) (2 ^ (e - k)) ((n - 1) / 2 ^ k + 1) := by
  intro k
  induction k with
  | zero =>
    intro _
    have h1 : e - 0 = e := by omega
    have h2 : (n - 1) / 2 ^ 0 + 1 = n := by
      rw [pow_zero, Nat.div_one]
      omega
    rw [h1, h2]
    exact hlev0
  | succ k ih =>
    intro hk1
    have hprev : levelOK h0 r (2 * leafs - 2 ^ (e - (k + 1) + 2))
        (2 ^ (e - (k + 1) + 1)) ((n - 1) / 2 ^ k + 1) := by
      have hm2 : e - (k + 1) + 2 = e - k + 1 := by omega
      have hm3 : e - (k + 1) + 1 = e - k := by omega
      rw [hm2, hm3]
      exact ih (by omega)
    have hup := levelOK_up hrec hnode hleafs (m := e - (k + 1)) (by omega) hprev
    have hcnt : ((n - 1) / 2 ^ k + 1 + 1) / 2 = (n - 1) / 2 ^ (k + 1) + 1 := by
      have hdd : (n - 1) / 2 ^ k / 2 = (n - 1) / 2 ^ (k + 1) := by
        rw [Nat.div_div_eq_div_mul, pow_succ]
      omega
    rw [hcnt] at hup
    exact hup

/-! ### The `gen_proof` loop: structural walk (no assumption on hashes) -/

lemma bits_map_succ (j m : Nat) :
    (List.range (m + 1)).map (fun k => j / 2 ^ k &&& 1 == 0) =
      (j &&& 1 == 0) :: (List.range m).map (fun k => (j / 2) / 2 ^ k &&& 1 == 0) := by
  rw [List.range_succ_eq_map, List.map_cons, List.map_map]
  congr 1
  · rw [pow_zero, Nat.div_one]
  · apply List.map_congr_left
    intro k _
    simp only [Function.comp_apply]
    rw [Nat.div_div_eq_div_mul, ← pow_succ']

lemma proofLoop_struct {h0 : D} {data : List D} {leafs e : Nat}
    (hleafs : leafs = 2 ^ e) (hlen : data.length = 2 * leafs - 1) :
    ∀ m, ∀ fuel base j lem path,
      m ≤ fuel → m ≤ e →
      base = 2 * leafs - 2 ^ (m + 1) →
      j < 2 ^ m →
      ∃ sibs,
        proofLoop h0 data fuel base (2 ^ m) j lem path =
          some (lem ++ sibs, path ++ (List.range m).map (fun k => j / 2 ^ k &&& 1 == 0)) ∧
        sibs.length = m := by
  intro m
  induction m with
  | zero =>
    intro fuel base j lem path _ _ hbase hj
    refine ⟨[], ?_, rfl⟩
    have hstep : ¬ ((1:Nat) < 2 ^ 0) := by norm_num
    cases fuel with
    | zero => simp [proofLoop, hstep]
    | succ fuel => simp [proofLoop, hstep]
  | succ m ih =>
    intro fuel base j lem path hfuel hme hbase hj
    cases fuel with
    | zero => omega
    | succ fuel =>
    have hP : (0:Nat) < 2 ^ m := Nat.pos_pow_of_pos _ (by omega)
    have hP1 : (2:Nat) ^ (m + 1) = 2 * 2 ^ m := by ring
    have hle : 2 ^ (m + 1) ≤ leafs := by
      rw [hleafs]
      exact Nat.pow_le_pow_right (by omega) hme
    have hgt : (1:Nat) < 2 ^ (m + 1) := by omega
    have hsr : 2 ^ (m + 1) >>> 1 = 2 ^ m := by
      rw [Nat.shiftRight_one, hP1]
      omega
    have hjr : j >>> 1 = j / 2 := Nat.shiftRight_one j
    have hbase' : base + 2 ^ (m + 1) = 2 * leafs - 2 ^ (m + 1) := by omega
    have hj2 : j / 2 < 2 ^ m := by omega
    by_cases hjp : j % 2 = 0
    · have hbool : (j &&& 1 == 0) = true := by
        rw [Nat.and_one_is_mod, hjp]
        rfl
      have hidx : base + j + 1 < data.length := by omega
      obtain ⟨rh, hrh⟩ : ∃ x, data[base + j + 1]? = some x :=
        ⟨_, List.getElem?_eq_getElem hidx⟩
      by_cases hzero : rh = h0
      · have hidx0 : base + j < data.length := by omega
        obtain ⟨v, hv⟩ : ∃ x, data[base + j]? = some x :=
          ⟨_, List.getElem?_eq_getElem hidx0⟩
        obtain ⟨sibs, hloop, hslen⟩ := ih fuel (base + 2 ^ (m + 1)) (j / 2)
          (lem ++ [v]) (path ++ [j &&& 1 == 0]) (by omega) (by omega) (by omega) hj2
        refine ⟨v :: sibs, ?_, by simp [hslen]⟩
        have hred : proofLoop h0 data (fuel + 1) base (2 ^ (m + 1)) j lem path =
            proofLoop h0 data fuel (base + 2 ^ (m + 1)) (2 ^ m) (j / 2)
              (lem ++ [v]) (path ++ [j &&& 1 == 0]) := by
          simp only [proofLoop, if_pos hgt, hbool, if_true, hrh, if_pos hzero, hv,
            hsr, hjr]
        rw [hred, hloop, bits_map_succ]
        simp [List.append_assoc]
      · obtain ⟨sibs, hloop, hslen⟩ := ih fuel (base + 2 ^ (m + 1)) (j / 2)
          (lem ++ [rh]) (path ++ [j &&& 1 == 0]) (by omega) (by omega) (by omega) hj2
        refine ⟨rh :: sibs, ?_, by simp [hslen]⟩
        have hred : proofLoop h0 data (fuel + 1) base (2 ^ (m + 1)) j lem path =
            proofLoop h0 data fuel (base + 2 ^ (m + 1)) (2 ^ m) (j / 2)
              (lem ++ [rh]) (path ++ [j &&& 1 == 0]) := by
          simp only [proofLoop, if_pos hgt, hbool, if_true, hrh, if_neg hzero, hsr, hjr]
        rw [hred, hloop, bits_map_succ]
        simp [List.append_assoc]
    · have hbool : (j &&& 1 == 0) = false := by
        rw [Nat.and_one_is_mod]
        have : j % 2 = 1 := by omega
        rw [this]
        rfl
      have hidx0 : base + j - 1 < data.length := by omega
      obtain ⟨v, hv⟩ : ∃ x, data[base + j - 1]? = some x :=
        ⟨_, List.getElem?_eq_getElem hidx0⟩
      obtain ⟨sibs, hloop, hslen⟩ := ih fuel (base + 2 ^ (m + 1)) (j / 2)
        (lem ++ [v]) (path ++ [j &&& 1 == 0]) (by omega) (by omega) (by omega) hj2
      refine ⟨v :: sibs, ?_, by simp [hslen]⟩
      have hred : proofLoop h0 data (fuel + 1) base (2 ^ (m + 1)) j lem path =
          proofLoop h0 data fuel (base + 2 ^ (m + 1)) (2 ^ m) (j / 2)
            (lem ++ [v]) (path ++ [j &&& 1 == 0]) := by
        simp only [proofLoop, if_pos hgt, hbool, Bool.false_eq_true, if_false, hv,
          hsr, hjr]
      rw [hred, hloop, bits_map_succ]
      simp [List.append_assoc]

/-! ### The `gen_proof` loop: value tracking and root reconstruction -/

lemma proofLoop_fold {node : D → D → D} {h0 : D} {data : List D} {leafs e : Nat}
    (hleafs : leafs = 2 ^ e) (hlen : data.length = 2 * leafs - 1)
    (hrec : heapRecur node h0 leafs data)
    (hnode : ∀ a b, a ≠ h0 → b ≠ h0 → node a b ≠ h0) :
    ∀ m, ∀ fuel base j cnt lem path v,
      m ≤ fuel → m ≤ e →
      base = 2 * leafs - 2 ^ (m + 1) →
      j < cnt → cnt ≤ 2 ^ m →
      levelOK h0 data base (2 ^ m) cnt →
      data[base + j]? = some v →
      ∃ sibs rv,
        data[2 * leafs - 2]? = some rv ∧
        proofLoop h0 data fuel base (2 ^ m) j lem path =
          some (lem ++ sibs, path ++ (List.range m).map (fun k => j / 2 ^ k &&& 1 == 0)) ∧
        sibs.length = m ∧
        (∀ x ∈ sibs, x ≠ h0) ∧
        verify_fold node v sibs ((List.range m).map (fun k => j / 2 ^ k &&& 1 == 0)) = rv := by
  intro m
  induction m with
  | zero =>
    intro fuel base j cnt lem path v _ _ hbase hj hcnt hlev hv
    have hj0 : j = 0 := by omega
    refine ⟨[], v, ?_, ?_, rfl, by simp, rfl⟩
    · have hp : (2:Nat) ^ (0 + 1) = 2 := by norm_num
      have hidx : base + j = 2 * leafs - 2 := by omega
      rw [← hidx]
      exact hv
    · have hstep : ¬ ((1:Nat) < 2 ^ 0) := by norm_num
      cases fuel with
      | zero => simp [proofLoop, hstep]
      | succ fuel => simp [proofLoop, hstep]
  | succ m ih =>
    intro fuel base j cnt lem path v hfuel hme hbase hj hcnt hlev hv
    cases fuel with
    | zero => omega
    | succ fuel =>
    have hP : (0:Nat) < 2 ^ m := Nat.pos_pow_of_pos _ (by omega)
    have hP1 : (2:Nat) ^ (m + 1) = 2 * 2 ^ m := by ring
    have hP2 : (2:Nat) ^ (m + 2) = 4 * 2 ^ m := by ring
    have hle : 2 ^ (m + 1) ≤ leafs := by
      rw [hleafs]
      exact Nat.pow_le_pow_right (by omega) hme
    have hgt : (1:Nat) < 2 ^ (m + 1) := by omega
    have hsr : 2 ^ (m + 1) >>> 1 = 2 ^ m := by
      rw [Nat.shiftRight_one, hP1]
      omega
    have hjr : j >>> 1 = j / 2 := Nat.shiftRight_one j
    have hbase' : base + 2 ^ (m + 1) = 2 * leafs - 2 ^ (m + 1) := by omega
    have hj2 : j / 2 < (cnt + 1) / 2 := by omega
    have hcnt2 : (cnt + 1) / 2 ≤ 2 ^ m := by omega
    -- the level one up
    have hlev' : levelOK h0 data (2 * leafs - 2 ^ (m + 1)) (2 ^ m) ((cnt + 1) / 2) :=
      levelOK_up hrec hnode hleafs (by omega) (hbase ▸ hlev)
    -- the current node is nonzero
    obtain ⟨v', hv', hiffv⟩ := hlev j (by omega)
    have hvv : v' = v := by
      rw [hv] at hv'
      exact (Option.some.inj hv').symm
    have hvne : v ≠ h0 := by
      rw [← hvv]
      exact hiffv.2 hj
    -- the parent within the flat recurrence
    set t := leafs - 2 ^ (m + 1) + j / 2 with hteq
    have htlt : t < leafs - 1 := by omega
    have hidxt : leafs + t = 2 * leafs - 2 ^ (m + 1) + j / 2 := by omega
    have hrect := hrec t htlt
    rw [hidxt] at hrect
    by_cases hjp : j % 2 = 0
    · have hbool : (j &&& 1 == 0) = true := by
        rw [Nat.and_one_is_mod, hjp]
        rfl
      have h2t : 2 * t = base + j := by omega
      have h2t1 : 2 * t + 1 = base + j + 1 := by omega
      obtain ⟨rh, hrh0, hiffrh⟩ := hlev (j + 1) (by omega)
      have hrh : data[base + j + 1]? = some rh := by
        rw [Nat.add_assoc]
        exact hrh0
      have hgd0 : data.getD (2 * t) h0 = v := by
        rw [List.getD_eq_getElem?_getD, h2t, hv]
        rfl
      have hgd1 : data.getD (2 * t + 1) h0 = rh := by
        rw [List.getD_eq_getElem?_getD, h2t1, hrh]
        rfl
      rw [hgd0, hgd1] at hrect
      by_cases hzero : rh = h0
      · -- right sibling absent: the node is paired with itself
        have hparent : parentDigest node h0 v rh = node v v := by
          rw [parentDigest, if_neg hvne, if_pos hzero]
        rw [hparent] at hrect
        obtain ⟨sibs, rv, hroot, hloop, hslen, hsne, hfold⟩ := ih fuel
          (base + 2 ^ (m + 1)) (j / 2) ((cnt + 1) / 2) (lem ++ [v])
          (path ++ [j &&& 1 == 0]) (node v v) (by omega) (by omega) (by omega)
          hj2 hcnt2 (hbase' ▸ hlev') (by rw [hbase']; exact hrect)
        rw [hbool] at hloop
        refine ⟨v :: sibs, rv, hroot, ?_, by simp [hslen], ?_, ?_⟩
        · have hred : proofLoop h0 data (fuel + 1) base (2 ^ (m + 1)) j lem path =
              proofLoop h0 data fuel (base + 2 ^ (m + 1)) (2 ^ m) (j / 2)
                (lem ++ [v]) (path ++ [true]) := by
            simp only [proofLoop, if_pos hgt, hbool, if_true, hrh, if_pos hzero, hv,
              hsr, hjr]
          rw [hred, hloop, bits_map_succ]
          simp [List.append_assoc, hbool, hjp]
        · intro x hx
          rcases List.mem_cons.1 hx with hx | hx
          · rw [hx]; exact hvne
          · exact hsne x hx
        · rw [bits_map_succ]
          show verify_fold node (if (j &&& 1 == 0) then node v v else node v v) sibs _ = rv
          rw [if_pos (by rw [hbool])]
          exact hfold
      · -- right sibling present
        have hrhne : rh ≠ h0 := hzero
        have hparent : parentDigest node h0 v rh = node v rh := by
          rw [parentDigest, if_neg hvne, if_neg hzero]
        rw [hparent] at hrect
        obtain ⟨sibs, rv, hroot, hloop, hslen, hsne, hfold⟩ := ih fuel
          (base + 2 ^ (m + 1)) (j / 2) ((cnt + 1) / 2) (lem ++ [rh])
          (path ++ [j &&& 1 == 0]) (node v rh) (by omega) (by omega) (by omega)
          hj2 hcnt2 (hbase' ▸ hlev') (by rw [hbase']; exact hrect)
        rw [hbool] at hloop
        refine ⟨rh :: sibs, rv, hroot, ?_, by simp [hslen], ?_, ?_⟩
        · have hred : proofLoop h0 data (fuel + 1) base (2 ^ (m + 1)) j lem path =
              proofLoop h0 data fuel (base + 2 ^ (m + 1)) (2 ^ m) (j / 2)
                (lem ++ [rh]) (path ++ [true]) := by
            simp only [proofLoop, if_pos hgt, hbool, if_true, hrh, if_neg hzero,
              hsr, hjr]
          rw [hred, hloop, bits_map_succ]
          simp [List.append_assoc, hbool, hjp]
        · intro x hx
          rcases List.mem_cons.1 hx with hx | hx
          · rw [hx]; exact hrhne
          · exact hsne x hx
        · rw [bits_map_succ]
          show verify_fold node (if (j &&& 1 == 0) then node v rh else node rh v) sibs _ = rv
          rw [if_pos (by rw [hbool])]
          exact hfold
    · -- j odd: the sibling is the left neighbour
      have hbool : (j &&& 1 == 0) = false := by
        rw [Nat.and_one_is_mod]
        have hj1 : j % 2 = 1 := by omega
        rw [hj1]
        rfl
      have h2t : 2 * t = base + j - 1 := by omega
      have h2t1 : 2 * t + 1 = base + j := by omega
      obtain ⟨v0, hv00, hiff0⟩ := hlev (j - 1) (by omega)
      have hv0 : data[base + j - 1]? = some v0 := by
        have hone : base + j - 1 = base + (j - 1) := by omega
        rw [hone]
        exact hv00
      have hv0ne : v0 ≠ h0 := hiff0.2 (by omega)
      have hgd0 : data.getD (2 * t) h0 = v0 := by
        rw [List.getD_eq_getElem?_getD, h2t, hv0]
        rfl
      have hgd1 : data.getD (2 * t + 1) h0 = v := by
        rw [List.getD_eq_getElem?_getD, h2t1, hv]
        rfl
      rw [hgd0, hgd1] at hrect
      have hparent : parentDigest node h0 v0 v = node v0 v := by
        rw [parentDigest, if_neg hv0ne, if_neg hvne]
      rw [hparent] at hrect
      obtain ⟨sibs, rv, hroot, hloop, hslen, hsne, hfold⟩ := ih fuel
        (base + 2 ^ (m + 1)) (j / 2) ((cnt + 1) / 2) (lem ++ [v0])
        (path ++ [j &&& 1 == 0]) (node v0 v) (by omega) (by omega) (by omega)
        hj2 hcnt2 (hbase' ▸ hlev') (by rw [hbase']; exact hrect)
      rw [hbool] at hloop
      refine ⟨v0 :: sibs, rv, hroot, ?_, by simp [hslen], ?_, ?_⟩
      · have hred : proofLoop h0 data (fuel + 1) base (2 ^ (m + 1)) j lem path =
            proofLoop h0 data fuel (base + 2 ^ (m + 1)) (2 ^ m) (j / 2)
              (lem ++ [v0]) (path ++ [false]) := by
          simp only [proofLoop, if_pos hgt, hbool, Bool.false_eq_true, if_false,
            hv0, hsr, hjr]
        rw [hred, hloop, bits_map_succ]
        simp [List.append_assoc, hbool, hjp]
      · intro x hx
        rcases List.mem_cons.1 hx with hx | hx
        · rw [hx]; exact hv0ne
        · exact hsne x hx
      · rw [bits_map_succ]
        show verify_fold node (if (j &&& 1 == 0) then node v v0 else node v0 v) sibs _ = rv
        rw [if_neg (by rw [hbool]; exact Bool.false_ne_true)]
        exact hfold

/-! ### Master lemmas about `gen_proof` on built trees -/

lemma gen_proof_eq {h0 : D} {t : MerkleTree D} {i : Nat} {v rv : D} {lem : List D}
    {pb : List Bool}
    (hi : i < t.olen)
    (hv : t.data[i]? = some v)
    (hloop : proofLoop h0 t.data t.leafs 0 t.leafs i [v] [] = some (lem, pb))
    (hroot : t.root = some rv) :
    t.gen_proof h0 i = some ⟨lem ++ [rv], pb⟩ := by
  simp only [MerkleTree.gen_proof, if_pos hi, hv, hloop, hroot]

/-- Structure of every proof generated on a validly built tree: the walk
succeeds, the lemma is leaf + `height - 1` siblings + root, and the path
bits record the parity of the node index at each level.  No assumption on
the hash functions is needed. -/
lemma gen_proof_struct {leaf : I → D} {node : D → D → D} {h0 : D} {items : List I}
    {t : MerkleTree D} {i : Nat}
    (hn2 : 2 ≤ items.length) (hn : items.length ≤ 2 ^ 62)
    (ht : from_iter leaf node h0 items = some t)
    (hi : i < t.olen) :
    ∃ v sibs rv,
      t.data[i]? = some v ∧
      t.root = some rv ∧
      sibs.length = t.height - 1 ∧
      t.gen_proof h0 i =
        some ⟨v :: (sibs ++ [rv]),
          (List.range (t.height - 1)).map (fun k => i / 2 ^ k &&& 1 == 0)⟩ := by
  obtain ⟨e, he62, hlv, holen, hpow, hnle, hht, hdl, hslots, hrec⟩ :=
    from_iter_char hn2 hn ht
  have hin : i < items.length := by
    rw [holen] at hi
    exact hi
  have hp : (0:Nat) < 2 ^ e := Nat.pos_pow_of_pos _ (by omega)
  have hp1 : (2:Nat) ^ (e + 1) = 2 * 2 ^ e := by ring
  have hlfp : 1 ≤ t.leafs := by omega
  have hvex : ∃ v, t.data[i]? = some v :=
    ⟨_, List.getElem?_eq_getElem (by omega)⟩
  obtain ⟨v, hv⟩ := hvex
  have hrex : ∃ rv, t.data[2 * t.leafs - 2]? = some rv :=
    ⟨_, List.getElem?_eq_getElem (by omega)⟩
  obtain ⟨rv, hrv⟩ := hrex
  have hroot : t.root = some rv := by
    show t.data[t.data.length - 1]? = some rv
    have hix : t.data.length - 1 = 2 * t.leafs - 2 := by omega
    rw [hix]
    exact hrv
  have hfuel : e ≤ t.leafs := by
    rw [hlv]
    have := Nat.lt_two_pow e
    omega
  have hbase0 : (0:Nat) = 2 * t.leafs - 2 ^ (e + 1) := by omega
  have hij : i < 2 ^ e := by omega
  obtain ⟨sibs, hloop, hslen⟩ :=
    proofLoop_struct hlv hdl e t.leafs 0 i [v] [] hfuel (le_refl e) hbase0 hij
  rw [← hlv] at hloop
  rw [List.nil_append] at hloop
  refine ⟨v, sibs, rv, hv, hroot, by rw [hht]; omega, ?_⟩
  have hgp := gen_proof_eq hi hv hloop hroot
  rw [hgp]
  have hh1 : t.height - 1 = e := by omega
  rw [hh1]
  simp [List.append_assoc]

/-- Full behaviour of `gen_proof` on a built tree when the hash functions
never produce the zero digest on real inputs: the proof's digest entries
are all nonzero, and folding the siblings along the path bits reconstructs
the stored root. -/
lemma gen_proof_master {leaf : I → D} {node : D → D → D} {h0 : D} {items : List I}
    {t : MerkleTree D} {i : Nat}
    (hn2 : 2 ≤ items.length) (hn : items.length ≤ 2 ^ 62)
    (hleaf : ∀ x ∈ items, leaf x ≠ h0)
    (hnode : ∀ a b, a ≠ h0 → b ≠ h0 → node a b ≠ h0)
    (ht : from_iter leaf node h0 items = some t)
    (hi : i < t.olen) :
    ∃ v sibs rv,
      t.data[i]? = some v ∧
      items[i]?.map leaf = some v ∧
      v ≠ h0 ∧
      t.root = some rv ∧ rv ≠ h0 ∧
      sibs.length = t.height - 1 ∧
      (∀ x ∈ sibs, x ≠ h0) ∧
      t.gen_proof h0 i =
        some ⟨v :: (sibs ++ [rv]),
          (List.range (t.height - 1)).map (fun k => i / 2 ^ k &&& 1 == 0)⟩ ∧
      verify_fold node v sibs
        ((List.range (t.height - 1)).map (fun k => i / 2 ^ k &&& 1 == 0)) = rv := by
  obtain ⟨e, he62, hlv, holen, hpow, hnle, hht, hdl, hslots, hrec⟩ :=
    from_iter_char hn2 hn ht
  have hin : i < items.length := by
    rw [holen] at hi
    exact hi
  have hp : (0:Nat) < 2 ^ e := Nat.pos_pow_of_pos _ (by omega)
  have hp1 : (2:Nat) ^ (e + 1) = 2 * 2 ^ e := by ring
  have hlev0 : levelOK h0 t.data (2 * t.leafs - 2 ^ (e + 1)) (2 ^ e) items.length :=
    levelOK_leafLevel hleaf hlv hnle hslots
  have hlev0' : levelOK h0 t.data 0 (2 ^ e) items.length := by
    have hz : 2 * t.leafs - 2 ^ (e + 1) = 0 := by omega
    rw [hz] at hlev0
    exact hlev0
  -- the value at the queried leaf
  obtain ⟨v, hv0, hiffv⟩ := hlev0' i (by omega)
  have hv : t.data[i]? = some v := by
    rw [← Nat.zero_add i]
    exact hv0
  have hvne : v ≠ h0 := hiffv.2 hin
  have hvleaf : items[i]?.map leaf = some v := by
    have hsl := hslots i (by omega)
    rw [List.getElem?_append, if_pos (by simpa using hin), List.getElem?_map] at hsl
    rw [hv] at hsl
    rw [← hsl]
  -- the root value, nonzero by the level tower at the top level
  have hrtop := levelOK_tower hrec hnode hlv (by omega) hlev0 e (le_refl e)
  have hee : e - e = 0 := by omega
  rw [hee] at hrtop
  obtain ⟨rv, hrv0, hiffr⟩ := hrtop 0 (by norm_num)
  have hrv : t.data[2 * t.leafs - 2]? = some rv := by
    have hix : 2 * t.leafs - 2 ^ (0 + 1) + 0 = 2 * t.leafs - 2 := by
      have : (2:Nat) ^ (0 + 1) = 2 := by norm_num
      omega
    rw [← hix]
    exact hrv0
  have hrvne : rv ≠ h0 := by
    apply hiffr.2
    exact Nat.succ_pos _
  have hroot : t.root = some rv := by
    show t.data[t.data.length - 1]? = some rv
    have hix : t.data.length - 1 = 2 * t.leafs - 2 := by omega
    rw [hix]
    exact hrv
  -- the walk
  have hfuel : e ≤ t.leafs := by
    rw [hlv]
    have := Nat.lt_two_pow e
    omega
  have hbase0 : (0:Nat) = 2 * t.leafs - 2 ^ (e + 1) := by omega
  have hcnt : items.length ≤ 2 ^ e := by omega
  have hlevcall : levelOK h0 t.data (2 * t.leafs - 2 ^ (e + 1)) (2 ^ e) items.length :=
    hlev0
  have hvcall : t.data[2 * t.leafs - 2 ^ (e + 1) + i]? = some v := by
    have hz : 2 * t.leafs - 2 ^ (e + 1) + i = i := by omega
    rw [hz]
    exact hv
  obtain ⟨sibs, rv', hrv', hloop, hslen, hsne, hfold⟩ :=
    proofLoop_fold hlv hdl hrec hnode e t.leafs (2 * t.leafs - 2 ^ (e + 1)) i
      items.length [v] [] v hfuel (le_refl e) rfl hin hcnt hlevcall hvcall
  have hbz : 2 * t.leafs - 2 ^ (e + 1) = 0 := by omega
  rw [hbz] at hloop
  rw [← hlv] at hloop
  rw [List.nil_append] at hloop
  have hrveq : rv' = rv := by
    rw [hrv] at hrv'
    exact (Option.some.inj hrv').symm
  rw [hrveq] at hfold
  refine ⟨v, sibs, rv, hv, hvleaf, hvne, hroot, hrvne, by omega, hsne, ?_, ?_⟩
  · have hgp := gen_proof_eq hi hv hloop hroot
    rw [hgp]
    have hh1 : t.height - 1 = e := by omega
    rw [hh1]
    simp [List.append_assoc]
  · have hh1 : t.height - 1 = e := by omega
    rw [hh1]
    exact hfold

/-! ### Claim theorems -/

/-- C6: for every `n` with `1 ≤ n ≤ 2^63` (`usize` width 64, overflow mod
`2^64`), `next_pow2 n` returns `n` when `n` is a power of two and otherwise
the smallest power of two strictly greater than `n`; in particular
`next_pow2` takes the spec's listed concrete values, and `2^63` (the
boundary `2^(width-1)`) is a fixed point. -/
theorem C6_next_pow2_correct (n : Nat) (h1 : 1 ≤ n) (h63 : n ≤ 2 ^ 63) :
    ((∃ e, n = 2 ^ e) → next_pow2 n = n) ∧
    (¬ (∃ e, n = 2 ^ e) →
      (∃ e, next_pow2 n = 2 ^ e) ∧ n < next_pow2 n ∧
      ∀ m, (∃ e, m = 2 ^ e) → n < m → next_pow2 n ≤ m) ∧
    next_pow2 1 = 1 ∧ next_pow2 2 = 2 ∧ next_pow2 3 = 4 ∧ next_pow2 4 = 4 ∧
    next_pow2 5 = 8 ∧ next_pow2 1024 = 1024 ∧ next_pow2 1025 = 2048 ∧
    next_pow2 (2 ^ 63) = 2 ^ 63 := by
  refine ⟨?_, ?_, by decide, by decide, by decide, by decide, by decide, by decide,
    by decide, next_pow2_pow_self (le_refl 63)⟩
  · rintro ⟨e, rfl⟩
    have he : e ≤ 63 := (Nat.pow_le_pow_iff_right (by omega)).1 h63
    exact next_pow2_pow_self he
  · intro hnp
    obtain ⟨e, he, hpe⟩ := next_pow2_isPow h1 h63
    refine ⟨⟨e, hpe⟩, ?_, ?_⟩
    · have hge := le_next_pow2 h1 h63
      rcases Nat.lt_or_ge n (next_pow2 n) with h | h
      · exact h
      · exfalso
        exact hnp ⟨e, by omega⟩
    · rintro m ⟨k, rfl⟩ hm
      exact next_pow2_le_pow h1 h63 (by omega)

/-- C4: every successfully built tree satisfies the layout invariants:
`olen` is the input length, `leafs = next_pow2 olen`, the flat array has
`2 * leafs - 1` slots, `height = log2 (2 * leafs)`, `root()` reads the last
slot, and every padding leaf slot in `[olen, leafs)` holds the zero digest. -/
theorem C4_tree_invariants {D I : Type} [DecidableEq D]
    (leaf : I → D) (node : D → D → D) (h0 : D) (items : List I) (t : MerkleTree D)
    (hn2 : 2 ≤ items.length) (hn : items.length ≤ 2 ^ 62)
    (ht : from_iter leaf node h0 items = some t) :
    t.olen = items.length ∧
    t.leafs = next_pow2 items.length ∧
    t.data.length = 2 * t.leafs - 1 ∧
    t.height = Nat.log2 (2 * t.leafs) ∧
    t.root = t.data[t.data.length - 1]? ∧
    (∀ m, t.olen ≤ m → m < t.leafs → t.data[m]? = some h0) := by
  obtain ⟨e, he62, hlv, holen, hpow, hnle, hht, hdl, hslots, hrec⟩ :=
    from_iter_char hn2 hn ht
  refine ⟨holen, hpow, hdl, ?_, rfl, ?_⟩
  · rw [hht, hlv]
    have h2 : 2 * 2 ^ e = 2 ^ (e + 1) := by ring
    rw [h2, Nat.log2_two_pow]
  · intro m hm1 hm2
    rw [holen] at hm1
    rw [hslots m hm2, List.getElem?_append, if_neg (by simp; omega),
      List.getElem?_replicate, List.length_map, if_pos (by omega)]

/-- C8: the raw-digest constructors `new`/`from_hash` route through
`from_iter`, which applies the hasher's `leaf` to every element; when
`leaf` acts as the identity on the supplied digests (the hash crate's
default `Algorithm::leaf`, per the spec's `build_from_hashes` contract),
the leaf slots `[0, n)` hold exactly the supplied digests in order. -/
theorem C8_from_hash_raw_digests {D : Type} [DecidableEq D]
    (leaf : D → D) (node : D → D → D) (h0 : D) (ds : List D) (t : MerkleTree D)
    (hn2 : 2 ≤ ds.length) (hn : ds.length ≤ 2 ^ 62)
    (hid : ∀ d ∈ ds, leaf d = d)
    (ht : from_hash leaf node h0 ds = some t) :
    new leaf node h0 ds = from_hash leaf node h0 ds ∧
    from_hash leaf node h0 ds = from_iter leaf node h0 ds ∧
    ∀ m, m < ds.length → t.data[m]? = ds[m]? := by
  refine ⟨rfl, rfl, ?_⟩
  obtain ⟨e, he62, hlv, holen, hpow, hnle, hht, hdl, hslots, hrec⟩ :=
    from_iter_char hn2 hn ht
  intro m hm
  rw [hslots m (by omega), List.getElem?_append, if_pos (by simpa using hm),
    List.getElem?_map, List.getElem?_eq_getElem hm, Option.map_some',
    hid ds[m] (List.getElem_mem hm)]

/-- C2: when `build` derives a parent whose left child is nonzero while the
right slot holds the zero digest, the parent is `node(left, left)`, never
`node(left, zero)`; concretely, for `n = 3` with leaf digests
`h1 = leaf x1, h2 = leaf x2, h3 = leaf x3` the root is
`node(node(h1, h2), node(h3, h3))`. -/
theorem C2_odd_node_rule {D I : Type} [DecidableEq D]
    (leaf : I → D) (node : D → D → D) (h0 : D) (items : List I) (t : MerkleTree D)
    (hn2 : 2 ≤ items.length) (hn : items.length ≤ 2 ^ 62)
    (ht : from_iter leaf node h0 items = some t) :
    (∀ s l, s < t.leafs - 1 →
      t.data.getD (2 * s) h0 = l → l ≠ h0 → t.data.getD (2 * s + 1) h0 = h0 →
      t.data[t.leafs + s]? = some (node l l)) ∧
    (∀ (x1 x2 x3 : I) (u : MerkleTree D),
      from_iter leaf node h0 [x1, x2, x3] = some u →
      leaf x1 ≠ h0 → leaf x2 ≠ h0 → leaf x3 ≠ h0 →
      (∀ a b, a ≠ h0 → b ≠ h0 → node a b ≠ h0) →
      u.root = some (node (node (leaf x1) (leaf x2)) (node (leaf x3) (leaf x3)))) := by
  obtain ⟨e, he62, hlv, holen, hpow, hnle, hht, hdl, hslots, hrec⟩ :=
    from_iter_char hn2 hn ht
  constructor
  · intro s l hs hgl hlne hgr
    have h := hrec s hs
    rw [hgl, hgr] at h
    rw [h, parentDigest, if_neg hlne, if_pos rfl]
  · intro x1 x2 x3 u hu h1 h2 h3 hnd
    obtain ⟨e', _, hlv', holen', hpow', hnle', hht', hdl', hslots', hrec'⟩ :=
      from_iter_char (by norm_num) (by norm_num) hu
    have hlen3 : [x1, x2, x3].length = 3 := rfl
    have hlv4 : u.leafs = 4 := by
      rw [hpow', hlen3]
      decide
    have hs0 : u.data[0]? = some (leaf x1) := by
      rw [hslots' 0 (by omega)]
      simp
    have hs1 : u.data[1]? = some (leaf x2) := by
      rw [hslots' 1 (by omega)]
      simp
    have hs2 : u.data[2]? = some (leaf x3) := by
      rw [hslots' 2 (by omega)]
      simp
    have hs3 : u.data[3]? = some h0 := by
      rw [hslots' 3 (by omega), hlen3, hlv4]
      simp
    have hg0 : u.data.getD 0 h0 = leaf x1 := by
      rw [List.getD_eq_getElem?_getD, hs0]
      rfl
    have hg1 : u.data.getD 1 h0 = leaf x2 := by
      rw [List.getD_eq_getElem?_getD, hs1]
      rfl
    have hg2 : u.data.getD 2 h0 = leaf x3 := by
      rw [List.getD_eq_getElem?_getD, hs2]
      rfl
    have hg3 : u.data.getD 3 h0 = h0 := by
      rw [List.getD_eq_getElem?_getD, hs3]
      rfl
    have hp0 : u.data[4]? = some (node (leaf x1) (leaf x2)) := by
      have h := hrec' 0 (by omega)
      have hiA : u.leafs + 0 = 4 := by omega
      have hiB : 2 * 0 = 0 := by norm_num
      have hiC : 2 * 0 + 1 = 1 := by norm_num
      rw [hiA, hiB, hiC, hg0, hg1] at h
      rw [h, parentDigest, if_neg h1, if_neg h2]
    have hp1 : u.data[5]? = some (node (leaf x3) (leaf x3)) := by
      have h := hrec' 1 (by omega)
      have hiA : u.leafs + 1 = 5 := by omega
      have hiB : 2 * 1 = 2 := by norm_num
      have hiC : 2 * 1 + 1 = 3 := by norm_num
      rw [hiA, hiB, hiC, hg2, hg3] at h
      rw [h, parentDigest, if_neg h3, if_pos rfl]
    have hg4 : u.data.getD 4 h0 = node (leaf x1) (leaf x2) := by
      rw [List.getD_eq_getElem?_getD, hp0]
      rfl
    have hg5 : u.data.getD 5 h0 = node (leaf x3) (leaf x3) := by
      rw [List.getD_eq_getElem?_getD, hp1]
      rfl
    have hp2 : u.data[6]? =
        some (node (node (leaf x1) (leaf x2)) (node (leaf x3) (leaf x3))) := by
      have h := hrec' 2 (by omega)
      have hiA : u.leafs + 2 = 6 := by omega
      have hiB : 2 * 2 = 4 := by norm_num
      have hiC : 2 * 2 + 1 = 5 := by norm_num
      rw [hiA, hiB, hiC, hg4, hg5] at h
      rw [h, parentDigest, if_neg (hnd _ _ h1 h2), if_neg (hnd _ _ h3 h3)]
    show u.data[u.data.length - 1]? = _
    have hix : u.data.length - 1 = 6 := by omega
    rw [hix]
    exact hp2

/-- Conversion between the spec's ceiling form and the floor form of the
per-level nonzero count. -/
lemma ceil_div_pow2 {n k : Nat} (hn : 1 ≤ n) :
    (n + 2 ^ k - 1) / 2 ^ k = (n - 1) / 2 ^ k + 1 := by
  have hp : (0:Nat) < 2 ^ k := Nat.pos_pow_of_pos _ (by omega)
  have h : n + 2 ^ k - 1 = (n - 1) + 2 ^ k := by omega
  rw [h, Nat.add_div_right _ hp]

/-- C10: when `leaf` and `node` never produce the zero digest on the values
actually hashed, every level's nonzero digests form a nonempty prefix of
length `ceil(olen / 2^k)` followed only by zeros; hence every ancestor of a
real leaf is nonzero, and the left sibling of an odd-position node visited
by `gen_proof` is nonzero. -/
theorem C10_nonzero_level_structure {D I : Type} [DecidableEq D]
    (leaf : I → D) (node : D → D → D) (h0 : D) (items : List I) (t : MerkleTree D)
    (hn2 : 2 ≤ items.length) (hn : items.length ≤ 2 ^ 62)
    (hleaf : ∀ x ∈ items, leaf x ≠ h0)
    (hnode : ∀ a b, a ≠ h0 → b ≠ h0 → node a b ≠ h0)
    (ht : from_iter leaf node h0 items = some t) :
    ∃ e, t.leafs = 2 ^ e ∧ t.height = e + 1 ∧
      (∀ k, k ≤ e → ∀ s, s < 2 ^ (e - k) →
        ∃ v, t.data[2 * t.leafs - 2 * 2 ^ (e - k) + s]? = some v ∧
          (v ≠ h0 ↔ s < (t.olen + 2 ^ k - 1) / 2 ^ k)) ∧
      (∀ i k, i < t.olen → k ≤ e →
        ∃ v, t.data[2 * t.leafs - 2 * 2 ^ (e - k) + i / 2 ^ k]? = some v ∧ v ≠ h0) ∧
      (∀ i k, i < t.olen → k ≤ e → (i / 2 ^ k) % 2 = 1 →
        ∃ v, t.data[2 * t.leafs - 2 * 2 ^ (e - k) + (i / 2 ^ k - 1)]? = some v ∧
          v ≠ h0) := by
  obtain ⟨e, he62, hlv, holen, hpow, hnle, hht, hdl, hslots, hrec⟩ :=
    from_iter_char hn2 hn ht
  have hlev0 : levelOK h0 t.data (2 * t.leafs - 2 ^ (e + 1)) (2 ^ e) items.length :=
    levelOK_leafLevel hleaf hlv hnle hslots
  have htower := levelOK_tower hrec hnode hlv (by omega) hlev0
  have hmain : ∀ k, k ≤ e → ∀ s, s < 2 ^ (e - k) →
      ∃ v, t.data[2 * t.leafs - 2 * 2 ^ (e - k) + s]? = some v ∧
        (v ≠ h0 ↔ s < (t.olen + 2 ^ k - 1) / 2 ^ k) := by
    intro k hk s hs
    obtain ⟨v, hv, hiff⟩ := htower k hk s hs
    refine ⟨v, ?_, ?_⟩
    · have hx : 2 * t.leafs - 2 ^ (e - k + 1) + s =
          2 * t.leafs - 2 * 2 ^ (e - k) + s := by
        have hpp : (2:Nat) ^ (e - k + 1) = 2 * 2 ^ (e - k) := by ring
        omega
      rw [← hx]
      exact hv
    · rw [holen, ceil_div_pow2 (by omega)]
      exact hiff
  refine ⟨e, hlv, hht, hmain, ?_, ?_⟩
  · intro i k hik hk
    have hp : (0:Nat) < 2 ^ k := Nat.pos_pow_of_pos _ (by omega)
    have hpow2 : 2 ^ (e - k) * 2 ^ k = 2 ^ e := by
      rw [← pow_add]
      congr 1
      omega
    have hin : i < items.length := by
      rw [holen] at hik
      exact hik
    have hdiv : i / 2 ^ k < 2 ^ (e - k) := by
      rw [Nat.div_lt_iff_lt_mul hp, hpow2]
      omega
    obtain ⟨v, hv, hiff⟩ := hmain k hk (i / 2 ^ k) hdiv
    refine ⟨v, hv, hiff.2 ?_⟩
    rw [holen, ceil_div_pow2 (by omega)]
    have hmono : i / 2 ^ k ≤ (items.length - 1) / 2 ^ k :=
      Nat.div_le_div_right (by omega)
    exact Nat.lt_succ_of_le hmono
  · intro i k hik hk hodd
    have hp : (0:Nat) < 2 ^ k := Nat.pos_pow_of_pos _ (by omega)
    have hpow2 : 2 ^ (e - k) * 2 ^ k = 2 ^ e := by
      rw [← pow_add]
      congr 1
      omega
    have hin : i < items.length := by
      rw [holen] at hik
      exact hik
    have hdiv : i / 2 ^ k < 2 ^ (e - k) := by
      rw [Nat.div_lt_iff_lt_mul hp, hpow2]
      omega
    have hdiv1 : i / 2 ^ k - 1 < 2 ^ (e - k) :=
      Nat.lt_of_le_of_lt (Nat.sub_le _ _) hdiv
    obtain ⟨v, hv, hiff⟩ := hmain k hk (i / 2 ^ k - 1) hdiv1
    refine ⟨v, hv, hiff.2 ?_⟩
    rw [holen, ceil_div_pow2 (by omega)]
    have hmono : i / 2 ^ k ≤ (items.length - 1) / 2 ^ k :=
      Nat.div_le_div_right (by omega)
    exact Nat.lt_succ_of_le (le_trans (Nat.sub_le _ _) hmono)

/-- C1: every proof generated for a valid leaf index verifies: the first
lemma entry is the hashed leaf, the last is the root, and folding the
sibling entries through `node` along the path bits (left-then-right on a
`true` bit, right-then-left otherwise) reproduces `tree.root()` exactly.
The `hleaf`/`hnode` hypotheses are the spec's Digest contract: real hash
outputs are distinct from the zero sentinel. -/
theorem C1_proof_verifies {D I : Type} [DecidableEq D]
    (leaf : I → D) (node : D → D → D) (h0 : D) (items : List I)
    (t : MerkleTree D) (i : Nat) (p : Proof D)
    (hn2 : 2 ≤ items.length) (hn : items.length ≤ 2 ^ 62)
    (hleaf : ∀ x ∈ items, leaf x ≠ h0)
    (hnode : ∀ a b, a ≠ h0 → b ≠ h0 → node a b ≠ h0)
    (ht : from_iter leaf node h0 items = some t)
    (hi : i < t.olen)
    (hp : t.gen_proof h0 i = some p) :
    ∃ v sibs r,
      items[i]?.map leaf = some v ∧
      p.«lemma» = v :: (sibs ++ [r]) ∧
      t.root = some r ∧
      verify_fold node v sibs p.path = r ∧
      p.«lemma».getLast? = t.root := by
  obtain ⟨v, sibs, rv, hv, hvleaf, hvne, hroot, hrvne, hslen, hsne, hgp, hfold⟩ :=
    gen_proof_master hn2 hn hleaf hnode ht hi
  rw [hp] at hgp
  have hpe := Option.some.inj hgp
  subst hpe
  refine ⟨v, sibs, rv, hvleaf, rfl, hroot, hfold, ?_⟩
  rw [hroot]
  show (v :: (sibs ++ [rv])).getLast? = some rv
  rw [← List.cons_append, List.getLast?_concat]

/-- C3: in `gen_proof`, a left child (even index) whose right slot holds
the zero digest contributes its own digest to `lemma`; a right child (odd
index) always contributes the node one position to its left; and on a tree
built from hashes that avoid the zero digest, no sibling entry of `lemma`
is the zero digest. -/
theorem C3_sibling_selection {D I : Type} [DecidableEq D]
    (leaf : I → D) (node : D → D → D) (h0 : D) (items : List I)
    (t : MerkleTree D) (i : Nat) (p : Proof D)
    (hn2 : 2 ≤ items.length) (hn : items.length ≤ 2 ^ 62)
    (hleaf : ∀ x ∈ items, leaf x ≠ h0)
    (hnode : ∀ a b, a ≠ h0 → b ≠ h0 → node a b ≠ h0)
    (ht : from_iter leaf node h0 items = some t)
    (hi : i < t.olen)
    (hp : t.gen_proof h0 i = some p) :
    (∀ (data : List D) (fuel base step j : Nat) (lem : List D) (path : List Bool)
      (v : D),
      1 < step → j % 2 = 0 → data[base + j + 1]? = some h0 →
      data[base + j]? = some v →
      proofLoop h0 data (fuel + 1) base step j lem path =
        proofLoop h0 data fuel (base + step) (step >>> 1) (j >>> 1)
          (lem ++ [v]) (path ++ [true])) ∧
    (∀ (data : List D) (fuel base step j : Nat) (lem : List D) (path : List Bool)
      (w : D),
      1 < step → j % 2 = 1 → data[base + j - 1]? = some w →
      proofLoop h0 data (fuel + 1) base step j lem path =
        proofLoop h0 data fuel (base + step) (step >>> 1) (j >>> 1)
          (lem ++ [w]) (path ++ [false])) ∧
    (∀ k x, 1 ≤ k → k ≤ p.path.length → p.«lemma»[k]? = some x → x ≠ h0) := by
  refine ⟨?_, ?_, ?_⟩
  · intro data fuel base step j lem path v hstep hjp hrh hv
    have hbool : (j &&& 1 == 0) = true := by
      rw [Nat.and_one_is_mod, hjp]
      rfl
    simp only [proofLoop, if_pos hstep, hbool, if_true, hrh, if_pos rfl, hv]
  · intro data fuel base step j lem path w hstep hjp hw
    have hbool : (j &&& 1 == 0) = false := by
      rw [Nat.and_one_is_mod, hjp]
      rfl
    simp only [proofLoop, if_pos hstep, hbool, Bool.false_eq_true, if_false, hw]
  · intro k x hk1 hk2 hx
    obtain ⟨v, sibs, rv, hv, hvleaf, hvne, hroot, hrvne, hslen, hsne, hgp, hfold⟩ :=
      gen_proof_master hn2 hn hleaf hnode ht hi
    rw [hp] at hgp
    have hpe := Option.some.inj hgp
    subst hpe
    simp only [List.length_map, List.length_range] at hk2
    cases k with
    | zero => omega
    | succ k' =>
      have hlt : k' < sibs.length := by omega
      have hx' : (sibs ++ [rv])[k']? = some x := by
        rw [← List.getElem?_cons_succ (a := v)]
        exact hx
      rw [List.getElem?_append, if_pos (by simpa using hlt)] at hx'
      exact hsne x (List.getElem?_mem hx')

/-- C5: every generated proof has `height + 1` lemma entries (leaf digest
first, `height - 1` siblings, root last) and `height - 1` path entries, so
`lemma.len() = path.len() + 2`; path entry `k` is `true` exactly when the
node index within level `k` is even.  No assumption on the hash functions
is needed. -/
theorem C5_proof_shape {D I : Type} [DecidableEq D]
    (leaf : I → D) (node : D → D → D) (h0 : D) (items : List I)
    (t : MerkleTree D) (i : Nat) (p : Proof D)
    (hn2 : 2 ≤ items.length) (hn : items.length ≤ 2 ^ 62)
    (ht : from_iter leaf node h0 items = some t)
    (hi : i < t.olen)
    (hp : t.gen_proof h0 i = some p) :
    p.«lemma».length = t.height + 1 ∧
    p.path.length = t.height - 1 ∧
    p.«lemma».length = p.path.length + 2 ∧
    p.«lemma».head? = t.data[i]? ∧
    p.«lemma».getLast? = t.root ∧
    (∀ k, k < p.path.length → (p.path[k]? = some true ↔ (i / 2 ^ k) % 2 = 0)) := by
  obtain ⟨e, he62, hlv, holen, hpow, hnle, hht, hdl, hslots, hrec⟩ :=
    from_iter_char hn2 hn ht
  obtain ⟨v, sibs, rv, hv, hroot, hslen, hgp⟩ := gen_proof_struct hn2 hn ht hi
  rw [hp] at hgp
  have hpe := Option.some.inj hgp
  subst hpe
  have hply : ((List.range (t.height - 1)).map
      (fun k => i / 2 ^ k &&& 1 == 0)).length = t.height - 1 := by
    rw [List.length_map, List.length_range]
  refine ⟨?_, hply, ?_, ?_, ?_, ?_⟩
  · show (v :: (sibs ++ [rv])).length = t.height + 1
    rw [List.length_cons, List.length_append, hslen]
    simp
    omega
  · show (v :: (sibs ++ [rv])).length = _ + 2
    rw [List.length_cons, List.length_append, hslen, hply]
    simp
  · show some v = t.data[i]?
    exact hv.symm
  · rw [hroot]
    show (v :: (sibs ++ [rv])).getLast? = some rv
    rw [← List.cons_append, List.getLast?_concat]
  · intro k hk
    have hk' : k < t.height - 1 := by
      rw [hply] at hk
      exact hk
    show ((List.range (t.height - 1)).map (fun k => i / 2 ^ k &&& 1 == 0))[k]? =
      some true ↔ _
    rw [List.getElem?_map, List.getElem?_range hk']
    simp [Nat.and_one_is_mod]

/-- C7: `from_iter` fails exactly on inputs of length below two (an input
of unknowable length is not representable by a list), and `gen_proof`
fails exactly on indices at or beyond `olen`; in both cases `none` is
returned and no tree or proof is produced in any other circumstance. -/
theorem C7_failure_conditions {D I : Type} [DecidableEq D]
    (leaf : I → D) (node : D → D → D) (h0 : D) :
    (∀ items : List I, from_iter leaf node h0 items = none ↔ items.length < 2) ∧
    (∀ (items : List I) (t : MerkleTree D) (i : Nat),
      2 ≤ items.length → items.length ≤ 2 ^ 62 →
      from_iter leaf node h0 items = some t →
      (t.gen_proof h0 i = none ↔ t.olen ≤ i)) := by
  constructor
  · intro items
    by_cases h : 1 < items.length
    · simp only [from_iter, if_pos h]
      constructor
      · intro hc
        exact absurd hc (by simp)
      · intro hc
        omega
    · simp only [from_iter, if_neg h]
      constructor
      · intro _
        omega
      · intro _
        trivial
  · intro items t i hn2 hn ht
    constructor
    · intro hnone
      by_contra hlt
      push_neg at hlt
      obtain ⟨v, sibs, rv, hv, hroot, hslen, hgp⟩ := gen_proof_struct hn2 hn ht hlt
      rw [hgp] at hnone
      exact Option.noConfusion hnone
    · intro hle
      simp only [MerkleTree.gen_proof]
      rw [if_neg (by omega)]

/-- C9: for a validly built tree and a leaf index below `olen`, every
array access of `gen_proof` is in bounds: in the `Option`-returning
embedding no read yields `none`, and the whole call returns `some` proof. -/
theorem C9_no_out_of_bounds {D I : Type} [DecidableEq D]
    (leaf : I → D) (node : D → D → D) (h0 : D) (items : List I)
    (t : MerkleTree D) (i : Nat)
    (hn2 : 2 ≤ items.length) (hn : items.length ≤ 2 ^ 62)
    (ht : from_iter leaf node h0 items = some t)
    (hi : i < t.olen) :
    ∃ p, t.gen_proof h0 i = some p ∧ t.gen_proof h0 i ≠ none := by
  obtain ⟨v, sibs, rv, hv, hroot, hslen, hgp⟩ := gen_proof_struct hn2 hn ht hi
  exact ⟨_, hgp, by rw [hgp]; exact Option.noConfusion⟩

/-! ### Concrete instantiation used by the witnesses -/

/-- A concrete hasher for witnesses: `leaf` on `Nat` items. -/
def natLeaf (x : Nat) : Nat := x + 1

/-- A concrete hasher for witnesses: `node` on `Nat` digests; never 0. -/
def natNode (a b : Nat) : Nat := a + b + 1

/-- The tree built from `[5, 6, 7]` with `natLeaf`/`natNode` and zero
digest `0`. -/
def tree357 : MerkleTree Nat := ⟨[6, 7, 8, 0, 14, 17, 32], 3, 4, 3⟩

/-- The proof generated for leaf index 2 of `tree357` (the odd leaf, whose
sibling is its own digest). -/
def proof357 : Proof Nat := ⟨[8, 8, 14, 32], [true, false]⟩

/-- The tree built from raw digests `[5, 6, 7]` with the identity `leaf`. -/
def treeRaw : MerkleTree Nat := ⟨[5, 6, 7, 0, 12, 15, 28], 3, 4, 3⟩

lemma natNode_ne (a b : Nat) : a ≠ 0 → b ≠ 0 → natNode a b ≠ 0 := by
  intro _ _
  unfold natNode
  omega

/-! ### Witnesses -/

theorem C1_proof_verifies_witness :
    ∃ v sibs r,
      (([5, 6, 7] : List Nat)[2]?).map natLeaf = some v ∧
      proof357.«lemma» = v :: (sibs ++ [r]) ∧
      tree357.root = some r ∧
      verify_fold natNode v sibs proof357.path = r ∧
      proof357.«lemma».getLast? = tree357.root :=
  C1_proof_verifies natLeaf natNode 0 [5, 6, 7] tree357 2 proof357
    (by decide) (by decide) (by decide) natNode_ne (by decide) (by decide) (by decide)

theorem C2_odd_node_rule_witness :
    (∀ s l, s < tree357.leafs - 1 →
      tree357.data.getD (2 * s) 0 = l → l ≠ 0 → tree357.data.getD (2 * s + 1) 0 = 0 →
      tree357.data[tree357.leafs + s]? = some (natNode l l)) ∧
    (∀ (x1 x2 x3 : Nat) (u : MerkleTree Nat),
      from_iter natLeaf natNode 0 [x1, x2, x3] = some u →
      natLeaf x1 ≠ 0 → natLeaf x2 ≠ 0 → natLeaf x3 ≠ 0 →
      (∀ a b, a ≠ 0 → b ≠ 0 → natNode a b ≠ 0) →
      u.root = some (natNode (natNode (natLeaf x1) (natLeaf x2))
        (natNode (natLeaf x3) (natLeaf x3)))) :=
  C2_odd_node_rule natLeaf natNode 0 [5, 6, 7] tree357
    (by decide) (by decide) (by decide)

theorem C3_sibling_selection_witness :
    (∀ (data : List Nat) (fuel base step j : Nat) (lem : List Nat)
      (path : List Bool) (v : Nat),
      1 < step → j % 2 = 0 → data[base + j + 1]? = some 0 →
      data[base + j]? = some v →
      proofLoop 0 data (fuel + 1) base step j lem path =
        proofLoop 0 data fuel (base + step) (step >>> 1) (j >>> 1)
          (lem ++ [v]) (path ++ [true])) ∧
    (∀ (data : List Nat) (fuel base step j : Nat) (lem : List Nat)
      (path : List Bool) (w : Nat),
      1 < step → j % 2 = 1 → data[base + j - 1]? = some w →
      proofLoop 0 data (fuel + 1) base step j lem path =
        proofLoop 0 data fuel (base + step) (step >>> 1) (j >>> 1)
          (lem ++ [w]) (path ++ [false])) ∧
    (∀ k x, 1 ≤ k → k ≤ proof357.path.length → proof357.«lemma»[k]? = some x →
      x ≠ 0) :=
  C3_sibling_selection natLeaf natNode 0 [5, 6, 7] tree357 2 proof357
    (by decide) (by decide) (by decide) natNode_ne (by decide) (by decide) (by decide)

theorem C4_tree_invariants_witness :
    tree357.olen = ([5, 6, 7] : List Nat).length ∧
    tree357.leafs = next_pow2 ([5, 6, 7] : List Nat).length ∧
    tree357.data.length = 2 * tree357.leafs - 1 ∧
    tree357.height = Nat.log2 (2 * tree357.leafs) ∧
    tree357.root = tree357.data[tree357.data.length - 1]? ∧
    (∀ m, tree357.olen ≤ m → m < tree357.leafs → tree357.data[m]? = some 0) :=
  C4_tree_invariants natLeaf natNode 0 [5, 6, 7] tree357
    (by decide) (by decide) (by decide)

theorem C5_proof_shape_witness :
    proof357.«lemma».length = tree357.height + 1 ∧
    proof357.path.length = tree357.height - 1 ∧
    proof357.«lemma».length = proof357.path.length + 2 ∧
    proof357.«lemma».head? = tree357.data[2]? ∧
    proof357.«lemma».getLast? = tree357.root ∧
    (∀ k, k < proof357.path.length →
      (proof357.path[k]? = some true ↔ (2 / 2 ^ k) % 2 = 0)) :=
  C5_proof_shape natLeaf natNode 0 [5, 6, 7] tree357 2 proof357
    (by decide) (by decide) (by decide) (by decide) (by decide)

theorem C6_next_pow2_correct_witness :
    ((∃ e, (5:Nat) = 2 ^ e) → next_pow2 5 = 5) ∧
    (¬ (∃ e, (5:Nat) = 2 ^ e) →
      (∃ e, next_pow2 5 = 2 ^ e) ∧ 5 < next_pow2 5 ∧
      ∀ m, (∃ e, m = 2 ^ e) → 5 < m → next_pow2 5 ≤ m) ∧
    next_pow2 1 = 1 ∧ next_pow2 2 = 2 ∧ next_pow2 3 = 4 ∧ next_pow2 4 = 4 ∧
    next_pow2 5 = 8 ∧ next_pow2 1024 = 1024 ∧ next_pow2 1025 = 2048 ∧
    next_pow2 (2 ^ 63) = 2 ^ 63 :=
  C6_next_pow2_correct 5 (by decide) (by decide)

theorem C7_failure_conditions_witness :
    (from_iter natLeaf natNode 0 ([9] : List Nat) = none ↔
      ([9] : List Nat).length < 2) ∧
    (tree357.gen_proof 0 5 = none ↔ tree357.olen ≤ 5) :=
  ⟨(C7_failure_conditions natLeaf natNode 0).1 [9],
   (C7_failure_conditions natLeaf natNode 0).2 [5, 6, 7] tree357 5
     (by decide) (by decide) (by decide)⟩

theorem C8_from_hash_raw_digests_witness :
    new (fun d => d) natNode 0 [5, 6, 7] = from_hash (fun d => d) natNode 0 [5, 6, 7] ∧
    from_hash (fun d => d) natNode 0 [5, 6, 7] =
      from_iter (fun d => d) natNode 0 [5, 6, 7] ∧
    ∀ m, m < ([5, 6, 7] : List Nat).length → treeRaw.data[m]? = ([5, 6, 7] : List Nat)[m]? :=
  C8_from_hash_raw_digests (fun d => d) natNode 0 [5, 6, 7] treeRaw
    (by decide) (by decide) (by decide) (by decide)

theorem C9_no_out_of_bounds_witness :
    ∃ p, tree357.gen_proof 0 2 = some p ∧ tree357.gen_proof 0 2 ≠ none :=
  C9_no_out_of_bounds natLeaf natNode 0 [5, 6, 7] tree357 2
    (by decide) (by decide) (by decide) (by decide)

theorem C10_nonzero_level_structure_witness :
    ∃ e, tree357.leafs = 2 ^ e ∧ tree357.height = e + 1 ∧
      (∀ k, k ≤ e → ∀ s, s < 2 ^ (e - k) →
        ∃ v, tree357.data[2 * tree357.leafs - 2 * 2 ^ (e - k) + s]? = some v ∧
          (v ≠ 0 ↔ s < (tree357.olen + 2 ^ k - 1) / 2 ^ k)) ∧
      (∀ i k, i < tree357.olen → k ≤ e →
        ∃ v, tree357.data[2 * tree357.leafs - 2 * 2 ^ (e - k) + i / 2 ^ k]? = some v ∧
          v ≠ 0) ∧
      (∀ i k, i < tree357.olen → k ≤ e → (i / 2 ^ k) % 2 = 1 →
        ∃ v, tree357.data[2 * tree357.leafs - 2 * 2 ^ (e - k) + (i / 2 ^ k - 1)]? =
          some v ∧ v ≠ 0) :=
  C10_nonzero_level_structure natLeaf natNode 0 [5, 6, 7] tree357
    (by decide) (by decide) (by decide) natNode_ne (by decide)

end Merkle
